import Mathlib

/-!
# Verification of the calc4 arithmetic interpreter

Shallow embedding of `src/4-context-free-grammar/calc4.py`, a recursive-descent
calculator with grammar

  m_expr : factor ((*|/) factor)*
  expr   : m_expr ((+|-) m_expr)*
  factor : INTEGER

The Python source is stateful (a Lexer cursor and an Interpreter holding the
current token); it is embedded here by explicit state passing.  Python
exceptions become an explicit `Except` error path.  Python numbers (ints, and
floats produced by true division `/`) are modelled as exact rationals `ℚ`;
on the concrete inputs appearing below the float results are exact, and the
`int` arithmetic of `+ - *` is exact in `ℚ` as well.

The `while` loops of the source are modelled as fuel-indexed recursions so
that every definition is structurally recursive and computable by the kernel.
The top-level entry point `evaluate` supplies fuel `text.length + 1`, which
is proved sufficient by the correspondence theorems below (the fuel-exhausted
branches return the artifact error `outOfFuel`, which those theorems show is
never reached on the inputs they cover).
-/

set_option maxRecDepth 4000

/-- Token types, from `INTEGER, S_SIGN, M_SIGN, EOF = 'INTEGER', '+|-', '*|/', 'EOF'`. -/
inductive TokenType where
  | INTEGER
  | S_SIGN
  | M_SIGN
  | EOF
deriving DecidableEq, Repr

/-- A Python token value: `0, 1, ..., 9, '+', ..., '/', None` — an int for
`INTEGER` tokens, a one-character string for sign tokens, `None` for `EOF`. -/
inductive TokenValue where
  | vInt (n : Nat)
  | vChar (c : Char)
  | vNone
deriving DecidableEq, Repr

/-- Model of `class Token`: a token type together with a value. -/
structure Token where
  type : TokenType
  value : TokenValue
deriving DecidableEq, Repr

/-- The Python exceptions this program can raise:
* `exception msg` — `raise Exception(msg)`, used by `Lexer.error`
  (`"Invalid character"`) and `Interpreter.error` (`"Invalid syntax"`);
* `zeroDivisionError` — raised by Python's `/` when the divisor is zero;
* `indexError` — raised by `self.text[self.pos]` in `Lexer.__init__` when the
  input string is empty;
* `outOfFuel` — artifact of the fuel-indexed embedding of the `while` loops,
  never reached with the fuel supplied by `evaluate` (proved below). -/
inductive PyError where
  | exception (msg : String)
  | zeroDivisionError
  | indexError
  | outOfFuel
deriving DecidableEq, Repr

/-- The class constant `Lexer.summation_signs = ['+','-']`. -/
def summation_signs : List Char := ['+', '-']

/-- The class constant `Lexer.multiplication_signs = ['*','/']`. -/
def multiplication_signs : List Char := ['*', '/']

/-- The ASCII fragment of Python's `str.isspace` (the inputs of this
development are ASCII; Python additionally accepts some Unicode spaces). -/
def pyIsSpace (c : Char) : Bool :=
  c == ' ' || c == '\t' || c == '\n' || c == '\x0b' || c == '\x0c' || c == '\r'

/-- The ASCII fragment of Python's `str.isdigit` (Python additionally accepts
some Unicode digits). -/
def pyIsDigit (c : Char) : Bool :=
  c.isDigit

/-- Value of a string of decimal digits, as computed by Python's `int`. -/
def digitsVal (ds : List Char) : Nat :=
  ds.foldl (fun a c => 10 * a + (c.toNat - 48)) 0

/-- Lexer state: the input text and the cursor position.  The source also
caches `current_char = text[pos]` (or `None` past the end); that cache is
recovered here as the function `Lexer.current_char`, which agrees with the
cache at every state the source reaches. -/
structure Lexer where
  text : List Char
  pos : Nat
deriving DecidableEq, Repr

/-- The cached current character: `text[pos]`, or `None` once past the end. -/
def Lexer.current_char (lx : Lexer) : Option Char :=
  lx.text.get? lx.pos

/-- Model of `Lexer.__init__`: stores the text, sets `pos = 0` and reads
`self.text[self.pos]` — which raises `IndexError` on an empty input. -/
def mkLexer (text : List Char) : Except PyError Lexer :=
  if text = [] then .error .indexError else .ok ⟨text, 0⟩

/-- Model of `Lexer.advance`: move the cursor one character forward.  (The source also
refreshes the cached `current_char`, setting it to `None` past the end;
`Lexer.current_char` reproduces that cache.) -/
def Lexer.advance (lx : Lexer) : Lexer :=
  ⟨lx.text, lx.pos + 1⟩

/-- Model of `Lexer.skip_whitespace`: advance while the current character is
whitespace.  Fuel-indexed image of the `while` loop; one unit of fuel per
iteration. -/
def Lexer.skip_whitespace (lx : Lexer) : Nat → Lexer
  | 0 => lx
  | fuel + 1 =>
    match lx.current_char with
    | some c => if pyIsSpace c then lx.advance.skip_whitespace fuel else lx
    | none => lx

/-- The accumulation loop of `Lexer.parse_integer`: collect consecutive
digits into `result`, advancing past each. -/
def Lexer.parse_integer_chars (lx : Lexer) (result : List Char) : Nat → List Char × Lexer
  | 0 => (result, lx)
  | fuel + 1 =>
    match lx.current_char with
    | some c =>
      if pyIsDigit c then lx.advance.parse_integer_chars (result ++ [c]) fuel
      else (result, lx)
    | none => (result, lx)

/-- Model of `Lexer.parse_integer`: read all consecutive digits and return
`int(result)`.  (`int('')` would raise in Python, but `get_next_token` only
calls this when the current character is a digit, so the accumulated string
is never empty there.) -/
def Lexer.parse_integer (lx : Lexer) (fuel : Nat) : Nat × Lexer :=
  let p := lx.parse_integer_chars [] fuel
  (digitsVal p.1, p.2)

/-- Model of `Lexer.parse_sign`: return the current character and advance past it.
(The current character is an `Option`; `get_next_token` only calls this when
it is present.) -/
def Lexer.parse_sign (lx : Lexer) : Option Char × Lexer :=
  (lx.current_char, lx.advance)

/-- Token value of an optional sign character (`None` never occurs at the
call sites inside `get_next_token`). -/
def TokenValue.ofOptChar : Option Char → TokenValue
  | some c => .vChar c
  | none => .vNone

/-- Model of `Lexer.get_next_token`, the lexer loop: skip whitespace and re-enter the
loop; on a digit return an `INTEGER` token via `parse_integer`; on `+`/`-` an
`S_SIGN` token; on `*`/`/` an `M_SIGN` token; otherwise `Lexer.error`
(`raise Exception("Invalid character")`); at end of text an `EOF` token.
Fuel-indexed image of the `while` loop. -/
def Lexer.get_next_token (lx : Lexer) : Nat → Except PyError (Token × Lexer)
  | 0 => .error .outOfFuel
  | fuel + 1 =>
    match lx.current_char with
    | some c =>
      if pyIsSpace c then
        (lx.skip_whitespace (fuel + 1)).get_next_token fuel
      else if pyIsDigit c then
        let p := lx.parse_integer (fuel + 1)
        .ok (⟨.INTEGER, .vInt p.1⟩, p.2)
      else if c ∈ summation_signs then
        let p := lx.parse_sign
        .ok (⟨.S_SIGN, .ofOptChar p.1⟩, p.2)
      else if c ∈ multiplication_signs then
        let p := lx.parse_sign
        .ok (⟨.M_SIGN, .ofOptChar p.1⟩, p.2)
      else
        .error (.exception "Invalid character")
    | none => .ok (⟨.EOF, .vNone⟩, lx)

/-- Interpreter state: the lexer and the current (lookahead) token, as in
`Interpreter.__init__`. -/
structure Interpreter where
  lexer : Lexer
  current_token : Token
deriving DecidableEq, Repr

/-- Model of `Interpreter.__init__`: initialize `current_token` to the first token. -/
def mkInterpreter (lx : Lexer) (fuel : Nat) : Except PyError Interpreter := do
  let p ← lx.get_next_token fuel
  return ⟨p.2, p.1⟩

/-- Numeric reading of a token value, as used by the arithmetic in `m_expr`
and `expr`.  Only `INTEGER` tokens (whose value is always `vInt`) reach those
arithmetic sites, because `factor` has already `eat`en an `INTEGER`; the
other cases are unreachable there. -/
def TokenValue.toRat : TokenValue → ℚ
  | .vInt n => (n : ℚ)
  | .vChar _ => 0
  | .vNone => 0

/-- Model of `Interpreter.eat`: if the current token has the expected type (and, when
`token_values` is nonempty, an expected value), fetch the next token;
on a type mismatch `Interpreter.error` (`raise Exception("Invalid syntax")`).
Note the source quirk: when the type matches but the value check fails, the
method silently falls through, leaving the state unchanged — no error is
raised and no token is consumed.  (All call sites pass `token_values = []`.) -/
def Interpreter.eat (st : Interpreter) (token_type : TokenType)
    (token_values : List TokenValue) (fuel : Nat) : Except PyError Interpreter :=
  if st.current_token.type = token_type then
    if token_values.isEmpty || token_values.contains st.current_token.value then do
      let p ← st.lexer.get_next_token fuel
      return ⟨p.2, p.1⟩
    else
      return st
  else
    .error (.exception "Invalid syntax")

/-- Model of `Interpreter.factor`: `factor : INTEGER` — record the current token, eat
an `INTEGER`, and return the recorded token's value. -/
def Interpreter.factor (st : Interpreter) (fuel : Nat) : Except PyError (ℚ × Interpreter) := do
  let token := st.current_token
  let st' ← st.eat .INTEGER [] fuel
  return (token.value.toRat, st')

/-- The `while self.current_token.type == M_SIGN` loop of
`Interpreter.m_expr`: eat the sign, then multiply or divide the accumulator
by the next `factor`.  Python's `/` raises `ZeroDivisionError` on a zero
divisor.  When the sign token's value is neither `'*'` nor `'/'` the loop
body does nothing and the loop re-tests its condition (unreachable from the
lexer, which only puts `'*'` or `'/'` in `M_SIGN` tokens).  Fuel-indexed. -/
def Interpreter.m_expr_loop (st : Interpreter) (result : ℚ) :
    Nat → Except PyError (ℚ × Interpreter)
  | 0 => .error .outOfFuel
  | fuel + 1 =>
    if st.current_token.type = TokenType.M_SIGN then do
      let token := st.current_token
      let st₁ ← st.eat .M_SIGN [] (fuel + 1)
      if token.value = .vChar '*' then do
        let p ← st₁.factor (fuel + 1)
        p.2.m_expr_loop (result * p.1) fuel
      else if token.value = .vChar '/' then do
        let p ← st₁.factor (fuel + 1)
        if p.1 = 0 then .error .zeroDivisionError
        else p.2.m_expr_loop (result / p.1) fuel
      else
        st₁.m_expr_loop result fuel
    else
      return (result, st)

/-- Model of `Interpreter.m_expr`: `m_expr : factor ((*|/) factor)*` — a first
`factor`, then the multiplication/division chain. -/
def Interpreter.m_expr (st : Interpreter) (fuel : Nat) : Except PyError (ℚ × Interpreter) := do
  let p ← st.factor fuel
  p.2.m_expr_loop p.1 fuel

/-- The `while self.current_token.type == S_SIGN` loop of
`Interpreter.expr`: eat the sign, then add or subtract the next `m_expr`.
As in `m_expr_loop`, a sign value other than `'+'`/`'-'` falls through
(unreachable from the lexer).  Fuel-indexed. -/
def Interpreter.expr_loop (st : Interpreter) (result : ℚ) :
    Nat → Except PyError (ℚ × Interpreter)
  | 0 => .error .outOfFuel
  | fuel + 1 =>
    if st.current_token.type = TokenType.S_SIGN then do
      let token := st.current_token
      let st₁ ← st.eat .S_SIGN [] (fuel + 1)
      if token.value = .vChar '+' then do
        let p ← st₁.m_expr (fuel + 1)
        p.2.expr_loop (result + p.1) fuel
      else if token.value = .vChar '-' then do
        let p ← st₁.m_expr (fuel + 1)
        p.2.expr_loop (result - p.1) fuel
      else
        st₁.expr_loop result fuel
    else
      return (result, st)

/-- Model of `Interpreter.expr`: `expr : m_expr ((+|-) m_expr)*` — a first `m_expr`,
then the summation chain. -/
def Interpreter.expr (st : Interpreter) (fuel : Nat) : Except PyError (ℚ × Interpreter) := do
  let p ← st.m_expr fuel
  p.2.expr_loop p.1 fuel

/-- One round of the `main` driver on a nonempty line, up to printing:
construct the `Lexer` (which reads `text[0]`), construct the `Interpreter`
(which fetches the first token), run `expr`, and return its result.  This is
the `evaluate` function of the specification.  Fuel `text.length + 1`
suffices for every loop (proved below). -/
def evalChars (text : List Char) : Except PyError ℚ := do
  let lexer ← mkLexer text
  let interpreter ← mkInterpreter lexer (text.length + 1)
  let p ← interpreter.expr (text.length + 1)
  return p.1

/-- The evaluate contract on a Python string: run `evalChars` on its characters. -/
def evaluate (text : String) : Except PyError ℚ :=
  evalChars text.data

instance {ε α : Type} [DecidableEq ε] [DecidableEq α] : DecidableEq (Except ε α) := fun x y =>
  match x, y with
  | .ok a, .ok b => if h : a = b then .isTrue (by rw [h]) else .isFalse (by simp [h])
  | .error a, .error b => if h : a = b then .isTrue (by rw [h]) else .isFalse (by simp [h])
  | .ok _, .error _ => .isFalse (by simp)
  | .error _, .ok _ => .isFalse (by simp)

/-!
## Reference layer

To state the universal claims (precedence, associativity, whitespace
insensitivity, error propagation) we describe the valid inputs of the grammar
by a syntax of *rendered expressions*: an expression is a first term followed
by sign-separated terms, a term is a first numeral followed by
`*`/`/`-separated numerals, and every separator may carry arbitrary
whitespace padding.  `render` turns such a description into input text;
`denote` is the specification-side meaning (each term folded left-to-right
with `*`/`/`, the terms then folded left-to-right with `+`/`-`, `none` on
division by zero).  The correspondence theorems below relate `evaluate` on
rendered text to `denote`.
-/

/-- A lexer state whose text is `pre ++ rem` with the cursor at the start of
`rem`. -/
def lexAt (pre rem : List Char) : Lexer :=
  ⟨pre ++ rem, pre.length⟩

/-- Relation `NextTok r t rc r'`: at any position whose remaining input is `r`, the
next call to `get_next_token` returns token `t`, consuming exactly `rc` and
leaving `r'` (for every consumed prefix and all sufficient fuel). -/
def NextTok (r : List Char) (t : Token) (rc r' : List Char) : Prop :=
  r = rc ++ r' ∧
    ∀ pre fuel, rc.length + 1 ≤ fuel →
      Lexer.get_next_token (lexAt pre r) fuel = .ok (t, lexAt (pre ++ rc) r')

/-- Multiplicative operators of the grammar. -/
inductive MOp where
  | mul
  | div
deriving DecidableEq, Repr

/-- Additive operators of the grammar. -/
inductive SOp where
  | add
  | sub
deriving DecidableEq, Repr

/-- Source character of a multiplicative operator. -/
def MOp.char : MOp → Char
  | .mul => '*'
  | .div => '/'

/-- Source character of an additive operator. -/
def SOp.char : SOp → Char
  | .add => '+'
  | .sub => '-'

/-- Specification meaning of one multiplicative step: multiply, or divide
when the divisor is nonzero (`none` marks division by zero). -/
def MOp.app : MOp → ℚ → ℚ → Option ℚ
  | .mul, a, b => some (a * b)
  | .div, a, b => if b = 0 then none else some (a / b)

/-- Specification meaning of one additive step. -/
def SOp.app : SOp → ℚ → ℚ → ℚ
  | .add, a, b => a + b
  | .sub, a, b => a - b

/-- One `(*|/) factor` item of a term: optional whitespace, the operator
character, optional whitespace, and a numeral. -/
structure MItem where
  ws1 : List Char
  op : MOp
  ws2 : List Char
  num : List Char
deriving DecidableEq, Repr

/-- A term: a first numeral and its multiplicative items. -/
structure TermR where
  num : List Char
  rest : List MItem
deriving DecidableEq, Repr

/-- One `(+|-) term` item of an expression. -/
structure SItem where
  ws1 : List Char
  op : SOp
  ws2 : List Char
  term : TermR
deriving DecidableEq, Repr

/-- A rendered expression: optional leading whitespace, a first term, its
additive items, and optional trailing whitespace. -/
structure ExprR where
  ws0 : List Char
  term : TermR
  rest : List SItem
  wsEnd : List Char
deriving DecidableEq, Repr

/-- Text of a multiplicative item. -/
def MItem.render (it : MItem) : List Char :=
  it.ws1 ++ [it.op.char] ++ it.ws2 ++ it.num

/-- Text of a list of multiplicative items. -/
def renderM : List MItem → List Char
  | [] => []
  | it :: l => it.render ++ renderM l

/-- Text of a term. -/
def TermR.render (t : TermR) : List Char :=
  t.num ++ renderM t.rest

/-- Text of an additive item. -/
def SItem.render (it : SItem) : List Char :=
  it.ws1 ++ [it.op.char] ++ it.ws2 ++ it.term.render

/-- Text of a list of additive items. -/
def renderS : List SItem → List Char
  | [] => []
  | it :: l => it.render ++ renderS l

/-- Text of a rendered expression. -/
def ExprR.render (e : ExprR) : List Char :=
  e.ws0 ++ e.term.render ++ renderS e.rest ++ e.wsEnd

/-- Left fold of a term's multiplicative chain, starting from `a`;
`none` on division by zero. -/
def denoteM : ℚ → List MItem → Option ℚ
  | a, [] => some a
  | a, it :: l =>
    match it.op.app a (digitsVal it.num : ℚ) with
    | some b => denoteM b l
    | none => none

/-- Specification value of a term: its numerals folded left-to-right with
`*`/`/`. -/
def TermR.denote (t : TermR) : Option ℚ :=
  denoteM (digitsVal t.num : ℚ) t.rest

/-- Left fold of an expression's additive chain, starting from `a`. -/
def denoteS : ℚ → List SItem → Option ℚ
  | a, [] => some a
  | a, it :: l =>
    match it.term.denote with
    | some b => denoteS (it.op.app a b) l
    | none => none

/-- Specification value of a rendered expression: every term is evaluated
first (multiplicative chains bind tighter), then the term values are folded
left-to-right with `+`/`-`. -/
def ExprR.denote (e : ExprR) : Option ℚ :=
  match e.term.denote with
  | some a => denoteS a e.rest
  | none => none

/-- All characters whitespace. -/
def spaceRun (ws : List Char) : Bool :=
  ws.all pyIsSpace

/-- A nonempty run of digits. -/
def digitRun (ds : List Char) : Bool :=
  !ds.isEmpty && ds.all pyIsDigit

/-- Wellformedness of a multiplicative item: whitespace paddings are
whitespace, the numeral is a nonempty digit run. -/
def MItem.wf (it : MItem) : Bool :=
  spaceRun it.ws1 && spaceRun it.ws2 && digitRun it.num

/-- Wellformedness of a term. -/
def TermR.wf (t : TermR) : Bool :=
  digitRun t.num && t.rest.all MItem.wf

/-- Wellformedness of an additive item. -/
def SItem.wf (it : SItem) : Bool :=
  spaceRun it.ws1 && spaceRun it.ws2 && it.term.wf

/-- Wellformedness of a rendered expression. -/
def ExprR.wf (e : ExprR) : Bool :=
  spaceRun e.ws0 && e.term.wf && e.rest.all SItem.wf && spaceRun e.wsEnd

/-- The whitespace-free skeleton of a term: its numerals and operators. -/
structure TermC where
  num : List Char
  rest : List (MOp × List Char)
deriving DecidableEq, Repr

/-- The whitespace-free skeleton of an expression. -/
structure ExprC where
  term : TermC
  rest : List (SOp × TermC)
deriving DecidableEq, Repr

/-- Forget the whitespace paddings of a term. -/
def TermR.core (t : TermR) : TermC :=
  ⟨t.num, t.rest.map fun it => (it.op, it.num)⟩

/-- Forget the whitespace paddings of a rendered expression. -/
def ExprR.core (e : ExprR) : ExprC :=
  ⟨e.term.core, e.rest.map fun it => (it.op, it.term.core)⟩

/-- The first character, if any, is not a digit (so a preceding numeral
cannot absorb it). -/
def headNotDigit : List Char → Bool
  | [] => true
  | c :: _ => !pyIsDigit c

/-- The first character, if any, is not whitespace. -/
def headNotSpace : List Char → Bool
  | [] => true
  | c :: _ => !pyIsSpace c

/-! ## Lexer stepping lemmas -/

theorem current_char_lexAt (pre rem : List Char) :
    (lexAt pre rem).current_char = rem.head? := by
  show (pre ++ rem).get? pre.length = rem.head?
  rw [List.get?_eq_getElem?, List.getElem?_append_right (Nat.le_refl _)]
  cases rem <;> simp

theorem advance_lexAt (pre rem : List Char) (c : Char) :
    (lexAt pre (c :: rem)).advance = lexAt (pre ++ [c]) rem := by
  simp only [lexAt, Lexer.advance, Lexer.mk.injEq]
  exact ⟨List.append_cons pre c rem, by simp⟩

theorem digit_not_space {c : Char} (h : pyIsDigit c = true) : pyIsSpace c = false := by
  by_contra hs
  rw [Bool.not_eq_false] at hs
  simp only [pyIsSpace, Bool.or_eq_true, beq_iff_eq] at hs
  rcases hs with ((((rfl | rfl) | rfl) | rfl) | rfl) | rfl <;> exact absurd h (by decide)

theorem headNotSpace_of_digit {r : List Char} (h : headNotDigit r = false) :
    headNotSpace r = true := by
  cases r with
  | nil => simp [headNotDigit] at h
  | cons c r =>
    simp only [headNotDigit, Bool.not_eq_false'] at h
    simp [headNotSpace, digit_not_space h]

theorem skip_whitespace_run (ws r : List Char) (hws : spaceRun ws = true)
    (hr : headNotSpace r = true) :
    ∀ pre fuel, ws.length + 1 ≤ fuel →
      Lexer.skip_whitespace (lexAt pre (ws ++ r)) fuel = lexAt (pre ++ ws) r := by
  induction ws with
  | nil =>
    intro pre fuel hf
    obtain ⟨f, rfl⟩ : ∃ f, fuel = f + 1 := ⟨fuel - 1, by omega⟩
    rw [Lexer.skip_whitespace]
    cases r with
    | nil => simp [current_char_lexAt]
    | cons c r =>
      simp only [headNotSpace, Bool.not_eq_true'] at hr
      simp [current_char_lexAt, hr]
  | cons w ws ih =>
    intro pre fuel hf
    obtain ⟨f, rfl⟩ : ∃ f, fuel = f + 1 := ⟨fuel - 1, by omega⟩
    simp only [spaceRun, List.all_cons, Bool.and_eq_true] at hws
    rw [Lexer.skip_whitespace]
    simp only [List.cons_append, current_char_lexAt, List.head?_cons, hws.1, if_true]
    rw [show (lexAt pre (w :: (ws ++ r))).advance = lexAt (pre ++ [w]) (ws ++ r) from
      advance_lexAt pre (ws ++ r) w]
    rw [ih hws.2 (pre ++ [w]) f (by simp only [List.length_cons] at hf; omega)]
    rw [← List.append_cons]

theorem parse_integer_chars_run (ds r : List Char) (hds : ds.all pyIsDigit = true)
    (hr : headNotDigit r = true) :
    ∀ pre acc fuel, ds.length + 1 ≤ fuel →
      Lexer.parse_integer_chars (lexAt pre (ds ++ r)) acc fuel = (acc ++ ds, lexAt (pre ++ ds) r) := by
  induction ds with
  | nil =>
    intro pre acc fuel hf
    obtain ⟨f, rfl⟩ : ∃ f, fuel = f + 1 := ⟨fuel - 1, by omega⟩
    rw [Lexer.parse_integer_chars]
    cases r with
    | nil => simp [current_char_lexAt]
    | cons c r =>
      simp only [headNotDigit, Bool.not_eq_true'] at hr
      simp [current_char_lexAt, hr]
  | cons d ds ih =>
    intro pre acc fuel hf
    obtain ⟨f, rfl⟩ : ∃ f, fuel = f + 1 := ⟨fuel - 1, by omega⟩
    simp only [List.all_cons, Bool.and_eq_true] at hds
    rw [Lexer.parse_integer_chars]
    simp only [List.cons_append, current_char_lexAt, List.head?_cons, hds.1, if_true]
    rw [show (lexAt pre (d :: (ds ++ r))).advance = lexAt (pre ++ [d]) (ds ++ r) from
      advance_lexAt pre (ds ++ r) d]
    rw [ih hds.2 (pre ++ [d]) (acc ++ [d]) f (by simp only [List.length_cons] at hf; omega)]
    rw [← List.append_cons, ← List.append_cons]

theorem parse_integer_run (ds r : List Char) (hds : ds.all pyIsDigit = true)
    (hr : headNotDigit r = true) (pre : List Char) (fuel : Nat) (hf : ds.length + 1 ≤ fuel) :
    Lexer.parse_integer (lexAt pre (ds ++ r)) fuel = (digitsVal ds, lexAt (pre ++ ds) r) := by
  rw [Lexer.parse_integer, parse_integer_chars_run ds r hds hr pre [] fuel hf]
  simp

/-! ## Token dispatch lemmas -/

theorem headNotSpace_digits {ds : List Char} (r : List Char) (hds : digitRun ds = true) :
    headNotSpace (ds ++ r) = true := by
  cases ds with
  | nil => simp [digitRun] at hds
  | cons d ds =>
    simp only [digitRun, List.all_cons, Bool.and_eq_true] at hds
    simp [headNotSpace, digit_not_space hds.2.1]

theorem gnt_digits (ds r : List Char) (hds : digitRun ds = true) (hr : headNotDigit r = true)
    (pre : List Char) (fuel : Nat) (hf : ds.length + 1 ≤ fuel) :
    Lexer.get_next_token (lexAt pre (ds ++ r)) fuel =
      .ok (⟨.INTEGER, .vInt (digitsVal ds)⟩, lexAt (pre ++ ds) r) := by
  obtain ⟨f, rfl⟩ : ∃ f, fuel = f + 1 := ⟨fuel - 1, by omega⟩
  have hall : ds.all pyIsDigit = true := by
    simp only [digitRun, Bool.and_eq_true] at hds; exact hds.2
  cases ds with
  | nil => simp [digitRun] at hds
  | cons d ds =>
    simp only [List.all_cons, Bool.and_eq_true] at hall
    rw [Lexer.get_next_token]
    simp only [List.cons_append, current_char_lexAt, List.head?_cons]
    rw [digit_not_space hall.1]
    simp only [Bool.false_eq_true, if_false, hall.1, if_true]
    have hpi := parse_integer_run (d :: ds) r (by simp [hall.1, hall.2]) hr pre (f + 1) hf
    simp only [List.cons_append] at hpi
    rw [hpi]

theorem gnt_ssign (c : Char) (r : List Char) (hc : c ∈ summation_signs)
    (pre : List Char) (fuel : Nat) (hf : 1 ≤ fuel) :
    Lexer.get_next_token (lexAt pre (c :: r)) fuel =
      .ok (⟨.S_SIGN, .vChar c⟩, lexAt (pre ++ [c]) r) := by
  obtain ⟨f, rfl⟩ : ∃ f, fuel = f + 1 := ⟨fuel - 1, by omega⟩
  rw [Lexer.get_next_token]
  simp only [current_char_lexAt, List.head?_cons]
  simp only [summation_signs, List.mem_cons, List.not_mem_nil, or_false] at hc
  rcases hc with rfl | rfl <;>
    simp [Lexer.parse_sign, current_char_lexAt, advance_lexAt, TokenValue.ofOptChar,
      pyIsSpace, pyIsDigit, summation_signs]

theorem gnt_msign (c : Char) (r : List Char) (hc : c ∈ multiplication_signs)
    (pre : List Char) (fuel : Nat) (hf : 1 ≤ fuel) :
    Lexer.get_next_token (lexAt pre (c :: r)) fuel =
      .ok (⟨.M_SIGN, .vChar c⟩, lexAt (pre ++ [c]) r) := by
  obtain ⟨f, rfl⟩ : ∃ f, fuel = f + 1 := ⟨fuel - 1, by omega⟩
  rw [Lexer.get_next_token]
  simp only [current_char_lexAt, List.head?_cons]
  simp only [multiplication_signs, List.mem_cons, List.not_mem_nil, or_false] at hc
  rcases hc with rfl | rfl <;>
    simp [Lexer.parse_sign, current_char_lexAt, advance_lexAt, TokenValue.ofOptChar,
      pyIsSpace, pyIsDigit, summation_signs, multiplication_signs]

theorem gnt_nil (pre : List Char) (fuel : Nat) (hf : 1 ≤ fuel) :
    Lexer.get_next_token (lexAt pre []) fuel = .ok (⟨.EOF, .vNone⟩, lexAt pre []) := by
  obtain ⟨f, rfl⟩ : ∃ f, fuel = f + 1 := ⟨fuel - 1, by omega⟩
  rw [Lexer.get_next_token]
  simp [current_char_lexAt]

theorem gnt_invalid (c : Char) (r : List Char) (h1 : pyIsSpace c = false)
    (h2 : pyIsDigit c = false) (h3 : c ∉ summation_signs) (h4 : c ∉ multiplication_signs)
    (pre : List Char) (fuel : Nat) (hf : 1 ≤ fuel) :
    Lexer.get_next_token (lexAt pre (c :: r)) fuel = .error (.exception "Invalid character") := by
  obtain ⟨f, rfl⟩ : ∃ f, fuel = f + 1 := ⟨fuel - 1, by omega⟩
  rw [Lexer.get_next_token]
  simp [current_char_lexAt, h1, h2, h3, h4]

theorem NextTok_integer {ws ds : List Char} (r : List Char) (hws : spaceRun ws = true)
    (hds : digitRun ds = true) (hr : headNotDigit r = true) :
    NextTok (ws ++ ds ++ r) ⟨.INTEGER, .vInt (digitsVal ds)⟩ (ws ++ ds) r := by
  refine ⟨by simp, ?_⟩
  intro pre fuel hf
  simp only [List.length_append] at hf
  cases ws with
  | nil =>
    simpa using gnt_digits ds r hds hr pre fuel (by simpa using hf)
  | cons w ws =>
    obtain ⟨f, rfl⟩ : ∃ f, fuel = f + 1 := ⟨fuel - 1, by omega⟩
    have hw : pyIsSpace w = true := by
      simp only [spaceRun, List.all_cons, Bool.and_eq_true] at hws; exact hws.1
    rw [Lexer.get_next_token]
    simp only [List.cons_append, List.append_assoc, current_char_lexAt, List.head?_cons,
      hw, if_true]
    rw [show w :: (ws ++ (ds ++ r)) = (w :: ws) ++ (ds ++ r) from rfl,
      skip_whitespace_run (w :: ws) (ds ++ r) hws (headNotSpace_digits r hds) pre (f + 1)
        (by simp only [List.length_cons] at hf ⊢; omega)]
    rw [gnt_digits ds r hds hr (pre ++ (w :: ws)) f
      (by simp only [List.length_cons] at hf ⊢; omega)]
    simp [List.append_assoc]

theorem NextTok_ssign {ws : List Char} {c : Char} (r : List Char) (hws : spaceRun ws = true)
    (hc : c ∈ summation_signs) :
    NextTok (ws ++ c :: r) ⟨.S_SIGN, .vChar c⟩ (ws ++ [c]) r := by
  refine ⟨by simp, ?_⟩
  intro pre fuel hf
  simp only [List.length_append] at hf
  cases ws with
  | nil =>
    simpa using gnt_ssign c r hc pre fuel (by omega)
  | cons w ws =>
    obtain ⟨f, rfl⟩ : ∃ f, fuel = f + 1 := ⟨fuel - 1, by omega⟩
    have hw : pyIsSpace w = true := by
      simp only [spaceRun, List.all_cons, Bool.and_eq_true] at hws; exact hws.1
    have hns : headNotSpace (c :: r) = true := by
      simp only [summation_signs, List.mem_cons, List.not_mem_nil, or_false] at hc
      rcases hc with rfl | rfl <;> simp [headNotSpace, pyIsSpace]
    rw [Lexer.get_next_token]
    simp only [List.cons_append, current_char_lexAt, List.head?_cons, hw, if_true]
    rw [show w :: (ws ++ c :: r) = (w :: ws) ++ (c :: r) from rfl,
      skip_whitespace_run (w :: ws) (c :: r) hws hns pre (f + 1)
        (by simp only [List.length_cons] at hf ⊢; omega)]
    rw [gnt_ssign c r hc (pre ++ (w :: ws)) f (by simp only [List.length_cons] at hf; omega)]
    simp [List.append_assoc]

theorem NextTok_msign {ws : List Char} {c : Char} (r : List Char) (hws : spaceRun ws = true)
    (hc : c ∈ multiplication_signs) :
    NextTok (ws ++ c :: r) ⟨.M_SIGN, .vChar c⟩ (ws ++ [c]) r := by
  refine ⟨by simp, ?_⟩
  intro pre fuel hf
  simp only [List.length_append] at hf
  cases ws with
  | nil =>
    simpa using gnt_msign c r hc pre fuel (by omega)
  | cons w ws =>
    obtain ⟨f, rfl⟩ : ∃ f, fuel = f + 1 := ⟨fuel - 1, by omega⟩
    have hw : pyIsSpace w = true := by
      simp only [spaceRun, List.all_cons, Bool.and_eq_true] at hws; exact hws.1
    have hns : headNotSpace (c :: r) = true := by
      simp only [multiplication_signs, List.mem_cons, List.not_mem_nil, or_false] at hc
      rcases hc with rfl | rfl <;> simp [headNotSpace, pyIsSpace]
    rw [Lexer.get_next_token]
    simp only [List.cons_append, current_char_lexAt, List.head?_cons, hw, if_true]
    rw [show w :: (ws ++ c :: r) = (w :: ws) ++ (c :: r) from rfl,
      skip_whitespace_run (w :: ws) (c :: r) hws hns pre (f + 1)
        (by simp only [List.length_cons] at hf ⊢; omega)]
    rw [gnt_msign c r hc (pre ++ (w :: ws)) f (by simp only [List.length_cons] at hf; omega)]
    simp [List.append_assoc]

theorem NextTok_eof {ws : List Char} (hws : spaceRun ws = true) :
    NextTok ws ⟨.EOF, .vNone⟩ ws [] := by
  refine ⟨by simp, ?_⟩
  intro pre fuel hf
  cases ws with
  | nil => simpa using gnt_nil pre fuel (by omega)
  | cons w ws =>
    obtain ⟨f, rfl⟩ : ∃ f, fuel = f + 1 := ⟨fuel - 1, by omega⟩
    have hw : pyIsSpace w = true := by
      simp only [spaceRun, List.all_cons, Bool.and_eq_true] at hws; exact hws.1
    rw [Lexer.get_next_token]
    simp only [current_char_lexAt, List.head?_cons, hw, if_true]
    rw [show (lexAt pre (w :: ws)) = lexAt pre ((w :: ws) ++ []) by simp,
      skip_whitespace_run (w :: ws) [] hws (by simp [headNotSpace]) pre (f + 1)
        (by simp only [List.length_cons] at hf ⊢; omega)]
    rw [gnt_nil (pre ++ (w :: ws)) f (by simp only [List.length_cons] at hf; omega)]

theorem NextTok_unique {r : List Char} {t1 t2 : Token} {rc1 rc2 r1 r2 : List Char}
    (h1 : NextTok r t1 rc1 r1) (h2 : NextTok r t2 rc2 r2) :
    t1 = t2 ∧ rc1 = rc2 ∧ r1 = r2 := by
  obtain ⟨e1, g1⟩ := h1
  obtain ⟨e2, g2⟩ := h2
  have h := (g1 [] (rc1.length + rc2.length + 1) (by omega)).symm.trans
    (g2 [] (rc1.length + rc2.length + 1) (by omega))
  simp only [lexAt, List.nil_append, Except.ok.injEq, Prod.mk.injEq, Lexer.mk.injEq] at h
  obtain ⟨ht, htext, hlen⟩ := h
  obtain ⟨hrc, hr⟩ := List.append_inj htext hlen
  exact ⟨ht, hrc, hr⟩

/-! ## Interpreter stepping lemmas -/

theorem except_bind_ok {α β : Type} (a : α) (f : α → Except PyError β) :
    ((.ok a : Except PyError α) >>= f) = f a := rfl

theorem except_bind_err {α β : Type} (e : PyError) (f : α → Except PyError β) :
    ((.error e : Except PyError α) >>= f) = .error e := rfl

theorem except_pure_eq {α : Type} (a : α) : (pure a : Except PyError α) = .ok a := rfl

theorem eat_ok {st : Interpreter} {ty : TokenType} (hty : st.current_token.type = ty)
    {t : Token} {lx' : Lexer} {fuel : Nat} (hg : st.lexer.get_next_token fuel = .ok (t, lx')) :
    st.eat ty [] fuel = .ok ⟨lx', t⟩ := by
  rw [Interpreter.eat, if_pos hty]
  simp [hg, except_bind_ok, except_pure_eq]

theorem eat_mismatch {st : Interpreter} {ty : TokenType} {vals : List TokenValue} {fuel : Nat}
    (hty : st.current_token.type ≠ ty) :
    st.eat ty vals fuel = .error (.exception "Invalid syntax") := by
  rw [Interpreter.eat, if_neg hty]

theorem factor_run {r : List Char} {t : Token} {rc r' : List Char} (h : NextTok r t rc r')
    (n : Nat) (pre : List Char) (fuel : Nat) (hf : rc.length + 1 ≤ fuel) :
    Interpreter.factor ⟨lexAt pre r, ⟨.INTEGER, .vInt n⟩⟩ fuel =
      .ok ((n : ℚ), ⟨lexAt (pre ++ rc) r', t⟩) := by
  rw [Interpreter.factor]
  rw [eat_ok rfl (h.2 pre fuel hf)]
  simp [except_bind_ok, except_pure_eq, TokenValue.toRat]

theorem factor_notInteger {st : Interpreter} {fuel : Nat}
    (h : st.current_token.type ≠ .INTEGER) :
    st.factor fuel = .error (.exception "Invalid syntax") := by
  rw [Interpreter.factor, eat_mismatch h]
  rfl

/-! ## Render helper lemmas -/

theorem space_not_digit {c : Char} (h : pyIsSpace c = true) : pyIsDigit c = false := by
  simp only [pyIsSpace, Bool.or_eq_true, beq_iff_eq] at h
  rcases h with ((((rfl | rfl) | rfl) | rfl) | rfl) | rfl <;> decide

theorem MOp_char_mem (op : MOp) : op.char ∈ multiplication_signs := by
  cases op <;> decide

theorem SOp_char_mem (op : SOp) : op.char ∈ summation_signs := by
  cases op <;> decide

theorem MOp_char_not_digit (op : MOp) : pyIsDigit op.char = false := by
  cases op <;> decide

theorem SOp_char_not_digit (op : SOp) : pyIsDigit op.char = false := by
  cases op <;> decide

theorem digitRun_ne_nil {ds : List Char} (h : digitRun ds = true) : ds ≠ [] := by
  cases ds with
  | nil => simp [digitRun] at h
  | cons d ds => simp

theorem digitRun_length {ds : List Char} (h : digitRun ds = true) : 1 ≤ ds.length := by
  cases ds with
  | nil => simp [digitRun] at h
  | cons d ds => simp

theorem headNotDigit_ws_cons {ws : List Char} {c : Char} (r : List Char)
    (hws : spaceRun ws = true) (hc : pyIsDigit c = false) :
    headNotDigit (ws ++ c :: r) = true := by
  cases ws with
  | nil => simp [headNotDigit, hc]
  | cons w ws =>
    simp only [spaceRun, List.all_cons, Bool.and_eq_true] at hws
    simp [headNotDigit, space_not_digit hws.1]

theorem headNotDigit_spaceRun {ws : List Char} (hws : spaceRun ws = true) :
    headNotDigit ws = true := by
  cases ws with
  | nil => rfl
  | cons w ws =>
    simp only [spaceRun, List.all_cons, Bool.and_eq_true] at hws
    simp [headNotDigit, space_not_digit hws.1]

theorem headNotDigit_renderM (l : List MItem) (k : List Char) (hl : l.all MItem.wf = true)
    (hk : headNotDigit k = true) : headNotDigit (renderM l ++ k) = true := by
  cases l with
  | nil => simpa [renderM] using hk
  | cons it l' =>
    simp only [List.all_cons, Bool.and_eq_true, MItem.wf] at hl
    have hws1 : spaceRun it.ws1 = true := by
      have := hl.1
      simp only [Bool.and_eq_true] at this
      exact this.1.1
    have := @headNotDigit_ws_cons it.ws1 it.op.char (it.ws2 ++ (it.num ++ (renderM l' ++ k)))
      hws1 (MOp_char_not_digit it.op)
    simpa [renderM, MItem.render, List.append_assoc] using this

theorem headNotDigit_renderS (l : List SItem) (k : List Char) (hl : l.all SItem.wf = true)
    (hk : headNotDigit k = true) : headNotDigit (renderS l ++ k) = true := by
  cases l with
  | nil => simpa [renderS] using hk
  | cons it l' =>
    simp only [List.all_cons, Bool.and_eq_true, SItem.wf] at hl
    have hws1 : spaceRun it.ws1 = true := by
      have := hl.1
      simp only [Bool.and_eq_true] at this
      exact this.1.1
    have := @headNotDigit_ws_cons it.ws1 it.op.char
      (it.ws2 ++ (it.term.render ++ (renderS l' ++ k)))
      hws1 (SOp_char_not_digit it.op)
    simpa [renderS, SItem.render, List.append_assoc] using this

theorem MItem_render_length {it : MItem} (h : it.wf = true) : 2 ≤ it.render.length := by
  simp only [MItem.wf, Bool.and_eq_true] at h
  have := digitRun_length h.2
  simp only [MItem.render, List.length_append, List.length_cons, List.length_nil]
  omega

theorem SItem_render_length {it : SItem} (h : it.wf = true) : 2 ≤ it.render.length := by
  simp only [SItem.wf, TermR.wf, Bool.and_eq_true] at h
  have := digitRun_length h.2.1
  simp only [SItem.render, TermR.render, List.length_append, List.length_cons, List.length_nil]
  omega

theorem renderM_firstTok (l : List MItem) {k : List Char} {tk : Token} {kc k' : List Char}
    (hl : l.all MItem.wf = true) (hk : NextTok k tk kc k') :
    ∃ c2 rc2 r2, NextTok (renderM l ++ k) c2 rc2 r2 ∧
      rc2.length ≤ (renderM l).length + kc.length := by
  cases l with
  | nil => exact ⟨tk, kc, k', by simpa [renderM] using hk, by simp [renderM]⟩
  | cons it l' =>
    simp only [List.all_cons, Bool.and_eq_true, MItem.wf] at hl
    have hws1 : spaceRun it.ws1 = true := by
      have := hl.1
      simp only [Bool.and_eq_true] at this
      exact this.1.1
    refine ⟨⟨.M_SIGN, .vChar it.op.char⟩, it.ws1 ++ [it.op.char],
      it.ws2 ++ (it.num ++ (renderM l' ++ k)), ?_, ?_⟩
    · have := NextTok_msign (r := it.ws2 ++ (it.num ++ (renderM l' ++ k)))
        hws1 (MOp_char_mem it.op)
      simpa [renderM, MItem.render, List.append_assoc] using this
    · simp only [renderM, MItem.render, List.length_append, List.length_cons, List.length_nil]
      omega

/-! ## Loop correspondence lemmas -/

theorem m_expr_loop_run {k : List Char} {tk : Token} {kc k' : List Char}
    (hk : NextTok k tk kc k') (hkty : tk.type ≠ .M_SIGN) (hkd : headNotDigit k = true) :
    ∀ (l : List MItem), l.all MItem.wf = true →
      ∀ (acc : ℚ) (pre : List Char) (cur : Token) (rc₀ r₀ : List Char),
        NextTok (renderM l ++ k) cur rc₀ r₀ →
        ∀ (fuel : Nat), (renderM l).length + kc.length + 1 ≤ fuel →
          Interpreter.m_expr_loop ⟨lexAt (pre ++ rc₀) r₀, cur⟩ acc fuel =
            match denoteM acc l with
            | some v => .ok (v, ⟨lexAt (pre ++ (renderM l ++ kc)) k', tk⟩)
            | none => .error .zeroDivisionError := by
  intro l
  induction l with
  | nil =>
    intro _ acc pre cur rc₀ r₀ hcur fuel hfuel
    have hkn : NextTok k cur rc₀ r₀ := by simpa [renderM] using hcur
    obtain ⟨ht, hrc, hr⟩ := NextTok_unique hkn hk
    subst ht; subst hrc; subst hr
    obtain ⟨f, rfl⟩ : ∃ f, fuel = f + 1 := ⟨fuel - 1, by omega⟩
    rw [Interpreter.m_expr_loop, if_neg hkty]
    simp only [denoteM, renderM, List.nil_append]
    rfl
  | cons it l' ih =>
    intro hl acc pre cur rc₀ r₀ hcur fuel hfuel
    obtain ⟨ws1, op, ws2, num⟩ := it
    simp only [List.all_cons, Bool.and_eq_true, MItem.wf] at hl
    obtain ⟨⟨⟨hws1, hws2⟩, hnum⟩, hl'⟩ := hl
    have hms : NextTok (renderM (⟨ws1, op, ws2, num⟩ :: l') ++ k)
        ⟨.M_SIGN, .vChar op.char⟩ (ws1 ++ [op.char])
        (ws2 ++ (num ++ (renderM l' ++ k))) := by
      have := NextTok_msign (r := ws2 ++ (num ++ (renderM l' ++ k))) hws1 (MOp_char_mem op)
      simpa [renderM, MItem.render, List.append_assoc] using this
    obtain ⟨ht, hrc, hr⟩ := NextTok_unique hcur hms
    subst ht; subst hrc; subst hr
    obtain ⟨f, rfl⟩ : ∃ f, fuel = f + 1 := ⟨fuel - 1, by omega⟩
    have hfuel' : (renderM (⟨ws1, op, ws2, num⟩ :: l')).length + kc.length + 1 ≤ f + 1 :=
      hfuel
    simp only [renderM, MItem.render, List.length_append, List.length_cons,
      List.length_nil] at hfuel'
    have hnumlen := digitRun_length hnum
    have hint : NextTok (ws2 ++ (num ++ (renderM l' ++ k)))
        ⟨.INTEGER, .vInt (digitsVal num)⟩ (ws2 ++ num) (renderM l' ++ k) := by
      have := NextTok_integer (renderM l' ++ k) hws2 hnum (headNotDigit_renderM l' k hl' hkd)
      simpa [List.append_assoc] using this
    obtain ⟨c2, rc2, r2, h2, h2len⟩ := renderM_firstTok l' hl' hk
    rw [Interpreter.m_expr_loop, if_pos rfl]
    rw [eat_ok rfl (hint.2 (pre ++ (ws1 ++ [op.char])) (f + 1)
      (by simp only [List.length_append]; omega))]
    rw [except_bind_ok]
    cases op with
    | mul =>
      simp only [MOp.char, if_true]
      rw [factor_run h2 (digitsVal num) ((pre ++ (ws1 ++ ['*'])) ++ (ws2 ++ num)) (f + 1)
        (by omega)]
      rw [except_bind_ok]
      rw [ih hl' (acc * (digitsVal num : ℚ)) ((pre ++ (ws1 ++ ['*'])) ++ (ws2 ++ num))
        c2 rc2 r2 h2 f (by omega)]
      simp only [denoteM, MOp.app]
      cases hdm : denoteM (acc * (digitsVal num : ℚ)) l' with
      | some v => simp [lexAt, renderM, MItem.render, List.append_assoc, MOp.char]
      | none => rfl
    | div =>
      simp only [MOp.char]
      rw [if_neg (by decide)]
      simp only [if_true]
      rw [factor_run h2 (digitsVal num) ((pre ++ (ws1 ++ ['/'])) ++ (ws2 ++ num)) (f + 1)
        (by omega)]
      rw [except_bind_ok]
      by_cases hz : ((digitsVal num : ℚ)) = 0
      · rw [if_pos hz]
        simp only [denoteM, MOp.app, MOp.char, if_pos hz]
      · rw [if_neg hz]
        rw [ih hl' (acc / (digitsVal num : ℚ)) ((pre ++ (ws1 ++ ['/'])) ++ (ws2 ++ num))
          c2 rc2 r2 h2 f (by omega)]
        simp only [denoteM, MOp.app, MOp.char, if_neg hz]
        cases hdm : denoteM (acc / (digitsVal num : ℚ)) l' with
        | some v => simp [lexAt, renderM, MItem.render, List.append_assoc, MOp.char]
        | none => rfl

theorem NextTok_len_le {r : List Char} {t : Token} {rc r' : List Char}
    (h : NextTok r t rc r') : rc.length ≤ r.length := by
  rw [h.1]
  simp

theorem m_expr_run {k : List Char} {tk : Token} {kc k' : List Char}
    (hk : NextTok k tk kc k') (hkty : tk.type ≠ .M_SIGN) (hkd : headNotDigit k = true)
    (t : TermR) (ht : t.wf = true) (pre : List Char) (fuel : Nat)
    (hfuel : (renderM t.rest).length + kc.length + 1 ≤ fuel) :
    Interpreter.m_expr
        ⟨lexAt pre (renderM t.rest ++ k), ⟨.INTEGER, .vInt (digitsVal t.num)⟩⟩ fuel =
      match t.denote with
      | some v => .ok (v, ⟨lexAt (pre ++ (renderM t.rest ++ kc)) k', tk⟩)
      | none => .error .zeroDivisionError := by
  simp only [TermR.wf, Bool.and_eq_true] at ht
  obtain ⟨c2, rc2, r2, h2, h2len⟩ := renderM_firstTok t.rest ht.2 hk
  rw [Interpreter.m_expr]
  rw [factor_run h2 (digitsVal t.num) pre fuel (by omega)]
  rw [except_bind_ok]
  exact m_expr_loop_run hk hkty hkd t.rest ht.2 (digitsVal t.num : ℚ) pre c2 rc2 r2 h2
    fuel (by omega)

theorem renderS_firstTok (l : List SItem) {k : List Char} {tk : Token} {kc k' : List Char}
    (hl : l.all SItem.wf = true) (hk : NextTok k tk kc k') (hktyM : tk.type ≠ .M_SIGN) :
    ∃ c2 rc2 r2, NextTok (renderS l ++ k) c2 rc2 r2 ∧ c2.type ≠ .M_SIGN ∧
      rc2.length ≤ (renderS l).length + kc.length := by
  cases l with
  | nil => exact ⟨tk, kc, k', by simpa [renderS] using hk, hktyM, by simp [renderS]⟩
  | cons it l' =>
    simp only [List.all_cons, Bool.and_eq_true, SItem.wf] at hl
    have hws1 : spaceRun it.ws1 = true := by
      have := hl.1
      simp only [Bool.and_eq_true] at this
      exact this.1.1
    refine ⟨⟨.S_SIGN, .vChar it.op.char⟩, it.ws1 ++ [it.op.char],
      it.ws2 ++ (it.term.render ++ (renderS l' ++ k)), ?_, fun h => TokenType.noConfusion h, ?_⟩
    · have := NextTok_ssign (r := it.ws2 ++ (it.term.render ++ (renderS l' ++ k)))
        hws1 (SOp_char_mem it.op)
      simpa [renderS, SItem.render, List.append_assoc] using this
    · simp only [renderS, SItem.render, List.length_append, List.length_cons, List.length_nil]
      omega

theorem expr_loop_exit {lx : Lexer} {t : Token} (h : t.type ≠ .S_SIGN) (v : ℚ)
    (fuel : Nat) (hf : 1 ≤ fuel) :
    Interpreter.expr_loop ⟨lx, t⟩ v fuel = .ok (v, ⟨lx, t⟩) := by
  obtain ⟨f, rfl⟩ : ∃ f, fuel = f + 1 := ⟨fuel - 1, by omega⟩
  rw [Interpreter.expr_loop, if_neg h]
  rfl

theorem expr_loop_run {k : List Char} {tk : Token} {kc k' : List Char}
    (hk : NextTok k tk kc k') (hktyM : tk.type ≠ .M_SIGN) (hkd : headNotDigit k = true)
    (out : ℚ → List Char → Except PyError (ℚ × Interpreter))
    (hout : ∀ (pre₂ : List Char) (v : ℚ) (fuel₂ : Nat), 1 ≤ fuel₂ →
      Interpreter.expr_loop ⟨lexAt pre₂ k', tk⟩ v fuel₂ = out v pre₂) :
    ∀ (l : List SItem), l.all SItem.wf = true →
      ∀ (acc : ℚ) (pre : List Char) (cur : Token) (rc₀ r₀ : List Char),
        NextTok (renderS l ++ k) cur rc₀ r₀ →
        ∀ (fuel : Nat), (renderS l).length + k.length + 1 ≤ fuel →
          Interpreter.expr_loop ⟨lexAt (pre ++ rc₀) r₀, cur⟩ acc fuel =
            match denoteS acc l with
            | some v => out v (pre ++ (renderS l ++ kc))
            | none => .error .zeroDivisionError := by
  intro l
  induction l with
  | nil =>
    intro _ acc pre cur rc₀ r₀ hcur fuel hfuel
    have hkn : NextTok k cur rc₀ r₀ := by simpa [renderS] using hcur
    obtain ⟨ht, hrc, hr⟩ := NextTok_unique hkn hk
    subst ht; subst hr
    rw [hrc]
    rw [hout (pre ++ kc) acc fuel (by omega)]
    simp [renderS, denoteS]
  | cons it l' ih =>
    intro hl acc pre cur rc₀ r₀ hcur fuel hfuel
    obtain ⟨ws1, op, ws2, t⟩ := it
    simp only [List.all_cons, Bool.and_eq_true, SItem.wf] at hl
    obtain ⟨⟨⟨hws1, hws2⟩, hterm⟩, hl'⟩ := hl
    have htermN : digitRun t.num = true := by
      have := hterm
      simp only [TermR.wf, Bool.and_eq_true] at this
      exact this.1
    have htermRest : t.rest.all MItem.wf = true := by
      have := hterm
      simp only [TermR.wf, Bool.and_eq_true] at this
      exact this.2
    have hnumlen := digitRun_length htermN
    have hkc := NextTok_len_le hk
    have hms : NextTok (renderS (⟨ws1, op, ws2, t⟩ :: l') ++ k)
        ⟨.S_SIGN, .vChar op.char⟩ (ws1 ++ [op.char])
        (ws2 ++ (t.render ++ (renderS l' ++ k))) := by
      have := NextTok_ssign (r := ws2 ++ (t.render ++ (renderS l' ++ k))) hws1 (SOp_char_mem op)
      simpa [renderS, SItem.render, List.append_assoc] using this
    obtain ⟨hteq, hrc, hr⟩ := NextTok_unique hcur hms
    subst hteq; subst hrc; subst hr
    obtain ⟨f, rfl⟩ : ∃ f, fuel = f + 1 := ⟨fuel - 1, by omega⟩
    have hfuel' := hfuel
    simp only [renderS, SItem.render, TermR.render, List.length_append, List.length_cons,
      List.length_nil] at hfuel'
    have hkd2 : headNotDigit (renderS l' ++ k) = true := headNotDigit_renderS l' k hl' hkd
    have hint : NextTok (ws2 ++ (t.render ++ (renderS l' ++ k)))
        ⟨.INTEGER, .vInt (digitsVal t.num)⟩ (ws2 ++ t.num)
        (renderM t.rest ++ (renderS l' ++ k)) := by
      have := NextTok_integer (renderM t.rest ++ (renderS l' ++ k)) hws2 htermN
        (headNotDigit_renderM t.rest (renderS l' ++ k) htermRest hkd2)
      simpa [TermR.render, List.append_assoc] using this
    rw [Interpreter.expr_loop, if_pos rfl]
    rw [eat_ok rfl (hint.2 (pre ++ (ws1 ++ [op.char])) (f + 1)
      (by simp only [List.length_append]; omega))]
    rw [except_bind_ok]
    obtain ⟨c2, rc2, r2, h2, hty2, h2len⟩ := renderS_firstTok l' hl' hk hktyM
    have hm := m_expr_run h2 hty2 hkd2 t hterm
      ((pre ++ (ws1 ++ [op.char])) ++ (ws2 ++ t.num)) (f + 1) (by omega)
    cases op with
    | add =>
      simp only [SOp.char, if_true]
      simp only [SOp.char] at hm
      rw [hm]
      cases hdt : t.denote with
      | none => simp only [except_bind_err, denoteS, hdt]
      | some b =>
        rw [except_bind_ok]
        rw [show ((pre ++ (ws1 ++ ['+'])) ++ (ws2 ++ t.num)) ++ (renderM t.rest ++ rc2) =
          (((pre ++ (ws1 ++ ['+'])) ++ (ws2 ++ t.num)) ++ renderM t.rest) ++ rc2 by
            simp [List.append_assoc]]
        rw [ih hl' (acc + b) (((pre ++ (ws1 ++ ['+'])) ++ (ws2 ++ t.num)) ++ renderM t.rest)
          c2 rc2 r2 h2 f (by omega)]
        simp only [denoteS, hdt, SOp.app]
        cases hds : denoteS (acc + b) l' with
        | some v => simp [List.append_assoc, renderS, SItem.render, TermR.render, SOp.char]
        | none => rfl
    | sub =>
      simp only [SOp.char]
      rw [if_neg (by decide)]
      simp only [if_true]
      simp only [SOp.char] at hm
      rw [hm]
      cases hdt : t.denote with
      | none => simp only [except_bind_err, denoteS, hdt]
      | some b =>
        rw [except_bind_ok]
        rw [show ((pre ++ (ws1 ++ ['-'])) ++ (ws2 ++ t.num)) ++ (renderM t.rest ++ rc2) =
          (((pre ++ (ws1 ++ ['-'])) ++ (ws2 ++ t.num)) ++ renderM t.rest) ++ rc2 by
            simp [List.append_assoc]]
        rw [ih hl' (acc - b) (((pre ++ (ws1 ++ ['-'])) ++ (ws2 ++ t.num)) ++ renderM t.rest)
          c2 rc2 r2 h2 f (by omega)]
        simp only [denoteS, hdt, SOp.app]
        cases hds : denoteS (acc - b) l' with
        | some v => simp [List.append_assoc, renderS, SItem.render, TermR.render, SOp.char]
        | none => rfl

theorem expr_render {k : List Char} {tk : Token} {kc k' : List Char}
    (hk : NextTok k tk kc k') (hktyM : tk.type ≠ .M_SIGN) (hkd : headNotDigit k = true)
    (out : ℚ → List Char → Except PyError (ℚ × Interpreter))
    (hout : ∀ (pre₂ : List Char) (v : ℚ) (fuel₂ : Nat), 1 ≤ fuel₂ →
      Interpreter.expr_loop ⟨lexAt pre₂ k', tk⟩ v fuel₂ = out v pre₂)
    (t : TermR) (ht : t.wf = true) (l : List SItem) (hl : l.all SItem.wf = true)
    (pre : List Char) (fuel : Nat)
    (hfuel : (renderM t.rest).length + (renderS l).length + k.length + 1 ≤ fuel) :
    Interpreter.expr
        ⟨lexAt pre (renderM t.rest ++ (renderS l ++ k)),
          ⟨.INTEGER, .vInt (digitsVal t.num)⟩⟩ fuel =
      match (match t.denote with | some a => denoteS a l | none => none) with
      | some v => out v (pre ++ (renderM t.rest ++ (renderS l ++ kc)))
      | none => .error .zeroDivisionError := by
  have hkd2 : headNotDigit (renderS l ++ k) = true := headNotDigit_renderS l k hl hkd
  obtain ⟨c2, rc2, r2, h2, hty2, h2len⟩ := renderS_firstTok l hl hk hktyM
  have hkc := NextTok_len_le hk
  rw [Interpreter.expr]
  rw [m_expr_run h2 hty2 hkd2 t ht pre fuel (by omega)]
  cases hdt : t.denote with
  | none => rfl
  | some a =>
    rw [except_bind_ok]
    rw [show pre ++ (renderM t.rest ++ rc2) = (pre ++ renderM t.rest) ++ rc2 by
      simp [List.append_assoc]]
    rw [expr_loop_run hk hktyM hkd out hout l hl a (pre ++ renderM t.rest) c2 rc2 r2 h2
      fuel (by omega)]
    cases hds : denoteS a l with
    | some v => simp [hds, List.append_assoc]
    | none => simp [hds, List.append_assoc]

theorem eof_not_msign : (⟨.EOF, .vNone⟩ : Token).type ≠ TokenType.M_SIGN :=
  fun h => TokenType.noConfusion h

theorem eof_not_ssign : (⟨.EOF, .vNone⟩ : Token).type ≠ TokenType.S_SIGN :=
  fun h => TokenType.noConfusion h

/-- The master correspondence: on every wellformed rendered expression, the
interpreter pipeline of `calc4.py` computes the specification value — each
term's multiplicative chain left-to-right first, then the additive chain
left-to-right — and raises `ZeroDivisionError` exactly when the
specification meets a zero divisor. -/
theorem evalChars_render (e : ExprR) (he : e.wf = true) :
    evalChars e.render =
      match e.denote with
      | some v => .ok v
      | none => .error .zeroDivisionError := by
  obtain ⟨ws0, t, l, wsEnd⟩ := e
  simp only [ExprR.wf, Bool.and_eq_true] at he
  obtain ⟨⟨⟨hws0, ht⟩, hl⟩, hwsEnd⟩ := he
  have htN : digitRun t.num = true := by
    have := ht
    simp only [TermR.wf, Bool.and_eq_true] at this
    exact this.1
  have htRest : t.rest.all MItem.wf = true := by
    have := ht
    simp only [TermR.wf, Bool.and_eq_true] at this
    exact this.2
  have hnumlen := digitRun_length htN
  have hfirst : NextTok (ExprR.render ⟨ws0, t, l, wsEnd⟩)
      ⟨.INTEGER, .vInt (digitsVal t.num)⟩ (ws0 ++ t.num)
      (renderM t.rest ++ (renderS l ++ wsEnd)) := by
    have := NextTok_integer (r := renderM t.rest ++ (renderS l ++ wsEnd)) hws0 htN
      (headNotDigit_renderM t.rest (renderS l ++ wsEnd) htRest
        (headNotDigit_renderS l wsEnd hl (headNotDigit_spaceRun hwsEnd)))
    simpa [ExprR.render, TermR.render, List.append_assoc] using this
  have hlen : (ExprR.render ⟨ws0, t, l, wsEnd⟩).length =
      ws0.length + (t.num.length + (renderM t.rest).length) + (renderS l).length
        + wsEnd.length := by
    simp only [ExprR.render, TermR.render, List.length_append]
    try omega
  have hne : ExprR.render ⟨ws0, t, l, wsEnd⟩ ≠ [] := by
    intro hnil
    rw [hnil] at hlen
    simp at hlen
    omega
  rw [evalChars, mkLexer, if_neg hne, except_bind_ok]
  have h0 : (⟨ExprR.render ⟨ws0, t, l, wsEnd⟩, 0⟩ : Lexer) =
      lexAt [] (ExprR.render ⟨ws0, t, l, wsEnd⟩) := by
    simp [lexAt]
  rw [h0, mkInterpreter]
  rw [hfirst.2 [] ((ExprR.render ⟨ws0, t, l, wsEnd⟩).length + 1)
    (by rw [hlen]; simp only [List.length_append]; omega)]
  rw [except_bind_ok, except_pure_eq, except_bind_ok]
  simp only [List.nil_append]
  rw [expr_render (NextTok_eof hwsEnd) eof_not_msign (headNotDigit_spaceRun hwsEnd)
    (fun v pre₂ => .ok (v, ⟨lexAt pre₂ [], ⟨.EOF, .vNone⟩⟩))
    (fun pre₂ v fuel₂ hf => expr_loop_exit eof_not_ssign v fuel₂ hf)
    t ht l hl (ws0 ++ t.num) ((ExprR.render ⟨ws0, t, l, wsEnd⟩).length + 1)
    (by rw [hlen]; omega)]
  cases hdt : t.denote with
  | none => simp [ExprR.denote, hdt, except_bind_err]
  | some a =>
    cases hds : denoteS a l with
    | some v => simp [ExprR.denote, hdt, hds, except_bind_ok, except_pure_eq]
    | none => simp [ExprR.denote, hdt, hds, except_bind_err]

/-- Generalization of the master correspondence to an arbitrary continuation
after the rendered expression: the pipeline parses `ws0 ++ term ++ items`,
reads the continuation's first token as lookahead, and finishes according to
what `expr`'s loop does on that token (`out`). -/
theorem evalChars_cont (ws0 : List Char) (t : TermR) (l : List SItem) (k : List Char)
    (hws0 : spaceRun ws0 = true) (ht : t.wf = true) (hl : l.all SItem.wf = true)
    {tk : Token} {kc k' : List Char} (hk : NextTok k tk kc k') (hktyM : tk.type ≠ .M_SIGN)
    (hkd : headNotDigit k = true)
    (out : ℚ → List Char → Except PyError (ℚ × Interpreter))
    (hout : ∀ (pre₂ : List Char) (v : ℚ) (fuel₂ : Nat), 1 ≤ fuel₂ →
      Interpreter.expr_loop ⟨lexAt pre₂ k', tk⟩ v fuel₂ = out v pre₂) :
    evalChars (ws0 ++ (t.render ++ (renderS l ++ k))) =
      match (match t.denote with | some a => denoteS a l | none => none) with
      | some v =>
        (out v ((ws0 ++ t.num) ++ (renderM t.rest ++ (renderS l ++ kc)))) >>= fun p => pure p.1
      | none => .error .zeroDivisionError := by
  have htN : digitRun t.num = true := by
    have := ht
    simp only [TermR.wf, Bool.and_eq_true] at this
    exact this.1
  have htRest : t.rest.all MItem.wf = true := by
    have := ht
    simp only [TermR.wf, Bool.and_eq_true] at this
    exact this.2
  have hnumlen := digitRun_length htN
  have hfirst : NextTok (ws0 ++ (t.render ++ (renderS l ++ k)))
      ⟨.INTEGER, .vInt (digitsVal t.num)⟩ (ws0 ++ t.num)
      (renderM t.rest ++ (renderS l ++ k)) := by
    have := NextTok_integer (r := renderM t.rest ++ (renderS l ++ k)) hws0 htN
      (headNotDigit_renderM t.rest (renderS l ++ k) htRest
        (headNotDigit_renderS l k hl hkd))
    simpa [TermR.render, List.append_assoc] using this
  have hlen : (ws0 ++ (t.render ++ (renderS l ++ k))).length =
      ws0.length + (t.num.length + (renderM t.rest).length + ((renderS l).length
        + k.length)) := by
    simp only [TermR.render, List.length_append]
    try omega
  have hne : ws0 ++ (t.render ++ (renderS l ++ k)) ≠ [] := by
    intro hnil
    rw [hnil] at hlen
    simp at hlen
    omega
  rw [evalChars, mkLexer, if_neg hne, except_bind_ok]
  have h0 : (⟨ws0 ++ (t.render ++ (renderS l ++ k)), 0⟩ : Lexer) =
      lexAt [] (ws0 ++ (t.render ++ (renderS l ++ k))) := by
    simp [lexAt]
  rw [h0, mkInterpreter]
  rw [hfirst.2 [] ((ws0 ++ (t.render ++ (renderS l ++ k))).length + 1)
    (by rw [hlen]; simp only [List.length_append]; omega)]
  rw [except_bind_ok, except_pure_eq, except_bind_ok]
  simp only [List.nil_append]
  rw [expr_render hk hktyM hkd out hout t ht l hl (ws0 ++ t.num)
    ((ws0 ++ (t.render ++ (renderS l ++ k))).length + 1) (by rw [hlen]; omega)]
  cases hdt : t.denote with
  | none => rfl
  | some a =>
    cases hds : denoteS a l with
    | some v => simp [hds]
    | none => simp [hds, except_bind_err]

/-! ## Error-path lemmas -/

theorem eat_gnt_err {st : Interpreter} {ty : TokenType} {fuel : Nat} {e : PyError}
    (hty : st.current_token.type = ty) (hg : st.lexer.get_next_token fuel = .error e) :
    st.eat ty [] fuel = .error e := by
  rw [Interpreter.eat, if_pos hty]
  simp [hg, except_bind_err]

theorem factor_err {st : Interpreter} {fuel : Nat} {e : PyError}
    (hty : st.current_token.type = .INTEGER)
    (hg : st.lexer.get_next_token fuel = .error e) :
    st.factor fuel = .error e := by
  rw [Interpreter.factor, eat_gnt_err hty hg]
  rfl

theorem gnt_invalid_ws {ws : List Char} {c : Char} (r : List Char) (hws : spaceRun ws = true)
    (h1 : pyIsSpace c = false) (h2 : pyIsDigit c = false) (h3 : c ∉ summation_signs)
    (h4 : c ∉ multiplication_signs) (pre : List Char) (fuel : Nat)
    (hf : ws.length + 1 ≤ fuel) :
    Lexer.get_next_token (lexAt pre (ws ++ c :: r)) fuel =
      .error (.exception "Invalid character") := by
  cases ws with
  | nil => simpa using gnt_invalid c r h1 h2 h3 h4 pre fuel (by omega)
  | cons w ws =>
    obtain ⟨f, rfl⟩ : ∃ f, fuel = f + 1 := ⟨fuel - 1, by omega⟩
    have hw : pyIsSpace w = true := by
      simp only [spaceRun, List.all_cons, Bool.and_eq_true] at hws; exact hws.1
    rw [Lexer.get_next_token]
    simp only [List.cons_append, current_char_lexAt, List.head?_cons, hw, if_true]
    rw [show w :: (ws ++ c :: r) = (w :: ws) ++ (c :: r) from rfl,
      skip_whitespace_run (w :: ws) (c :: r) hws (by simp [headNotSpace, h1]) pre (f + 1)
        (by simp only [List.length_cons] at hf ⊢; omega)]
    exact gnt_invalid c r h1 h2 h3 h4 (pre ++ (w :: ws)) f
      (by simp only [List.length_cons] at hf; omega)

theorem expr_loop_trailing_ssign {c : Char} (hc : c ∈ summation_signs) (pre₂ : List Char)
    (v : ℚ) (fuel : Nat) (hf : 1 ≤ fuel) :
    Interpreter.expr_loop ⟨lexAt pre₂ [], ⟨.S_SIGN, .vChar c⟩⟩ v fuel =
      .error (.exception "Invalid syntax") := by
  obtain ⟨f, rfl⟩ : ∃ f, fuel = f + 1 := ⟨fuel - 1, by omega⟩
  rw [Interpreter.expr_loop, if_pos rfl]
  rw [eat_ok rfl (gnt_nil pre₂ (f + 1) (by omega))]
  rw [except_bind_ok]
  have hfac : Interpreter.factor ⟨lexAt pre₂ [], ⟨.EOF, .vNone⟩⟩ (f + 1) =
      .error (.exception "Invalid syntax") :=
    factor_notInteger (fun h => TokenType.noConfusion h)
  simp only [summation_signs, List.mem_cons, List.not_mem_nil, or_false] at hc
  rcases hc with rfl | rfl
  · rw [if_pos rfl, Interpreter.m_expr, hfac]
    rfl
  · rw [if_neg (by intro h; simp at h), if_pos rfl, Interpreter.m_expr, hfac]
    rfl

theorem evalChars_num_invalid (ds ws : List Char) (c : Char) (r : List Char)
    (hds : digitRun ds = true) (hws : spaceRun ws = true) (h1 : pyIsSpace c = false)
    (h2 : pyIsDigit c = false) (h3 : c ∉ summation_signs) (h4 : c ∉ multiplication_signs) :
    evalChars (ds ++ (ws ++ c :: r)) = .error (.exception "Invalid character") := by
  have hnumlen := digitRun_length hds
  have hkd : headNotDigit (ws ++ c :: r) = true := by
    cases ws with
    | nil => simp [headNotDigit, h2]
    | cons w ws =>
      have hw : pyIsSpace w = true := by
        simp only [spaceRun, List.all_cons, Bool.and_eq_true] at hws; exact hws.1
      simp [headNotDigit, space_not_digit hw]
  have hfirst : NextTok (ds ++ (ws ++ c :: r)) ⟨.INTEGER, .vInt (digitsVal ds)⟩ ds
      (ws ++ c :: r) := by
    have := @NextTok_integer [] ds (ws ++ c :: r) rfl hds hkd
    simpa using this
  have hne : ds ++ (ws ++ c :: r) ≠ [] := by
    cases ds with
    | nil => simp [digitRun] at hds
    | cons d ds => simp
  rw [evalChars, mkLexer, if_neg hne, except_bind_ok]
  have h0 : (⟨ds ++ (ws ++ c :: r), 0⟩ : Lexer) = lexAt [] (ds ++ (ws ++ c :: r)) := by
    simp [lexAt]
  rw [h0, mkInterpreter]
  rw [hfirst.2 [] ((ds ++ (ws ++ c :: r)).length + 1)
    (by simp only [List.length_append]; omega)]
  rw [except_bind_ok, except_pure_eq, except_bind_ok]
  simp only [List.nil_append]
  have hgnt : Lexer.get_next_token (lexAt ds (ws ++ c :: r))
      ((ds ++ (ws ++ c :: r)).length + 1) = .error (.exception "Invalid character") :=
    gnt_invalid_ws r hws h1 h2 h3 h4 ds _ (by simp only [List.length_append]; omega)
  rw [Interpreter.expr, Interpreter.m_expr, Interpreter.factor, eat_gnt_err rfl hgnt]
  rfl

/-! ## Denotation lemmas -/

theorem denoteS_singletons (l : List SItem)
    (hsing : l.all (fun it => it.term.rest.isEmpty) = true) :
    ∀ a : ℚ, denoteS a l =
      some (l.foldl (fun acc it => SOp.app it.op acc (digitsVal it.term.num : ℚ)) a) := by
  induction l with
  | nil => intro a; rfl
  | cons it l' ih =>
    intro a
    simp only [List.all_cons, Bool.and_eq_true, List.isEmpty_iff] at hsing
    rw [denoteS, TermR.denote, hsing.1, denoteM]
    simp only [ih hsing.2, List.foldl_cons]

theorem denoteM_congr : ∀ (l l' : List MItem),
    l.map (fun it => (it.op, it.num)) = l'.map (fun it => (it.op, it.num)) →
    ∀ a : ℚ, denoteM a l = denoteM a l' := by
  intro l
  induction l with
  | nil =>
    intro l' h a
    rw [List.map_nil] at h
    rw [List.map_eq_nil_iff.mp h.symm]
  | cons it rest ih =>
    intro l' h a
    cases l' with
    | nil => simp at h
    | cons it2 rest2 =>
      simp only [List.map_cons, List.cons.injEq, Prod.mk.injEq] at h
      obtain ⟨⟨hop, hnum⟩, hrest⟩ := h
      rw [denoteM, denoteM, hop, hnum]
      cases MOp.app it2.op a (digitsVal it2.num : ℚ) with
      | none => rfl
      | some b => exact ih rest2 hrest b

theorem TermR_denote_congr {t t' : TermR} (h : t.core = t'.core) : t.denote = t'.denote := by
  simp only [TermR.core, TermC.mk.injEq] at h
  rw [TermR.denote, TermR.denote, h.1]
  exact denoteM_congr t.rest t'.rest h.2 _

theorem denoteS_congr : ∀ (l l' : List SItem),
    l.map (fun it => (it.op, it.term.core)) = l'.map (fun it => (it.op, it.term.core)) →
    ∀ a : ℚ, denoteS a l = denoteS a l' := by
  intro l
  induction l with
  | nil =>
    intro l' h a
    rw [List.map_nil] at h
    rw [List.map_eq_nil_iff.mp h.symm]
  | cons it rest ih =>
    intro l' h a
    cases l' with
    | nil => simp at h
    | cons it2 rest2 =>
      simp only [List.map_cons, List.cons.injEq, Prod.mk.injEq] at h
      obtain ⟨⟨hop, hterm⟩, hrest⟩ := h
      rw [denoteS, denoteS, TermR_denote_congr hterm, hop]
      cases it2.term.denote with
      | none => rfl
      | some b => exact ih rest2 hrest _

theorem ExprR_denote_congr {e e' : ExprR} (h : e.core = e'.core) : e.denote = e'.denote := by
  simp only [ExprR.core, ExprC.mk.injEq] at h
  rw [ExprR.denote, ExprR.denote, TermR_denote_congr h.1]
  cases e'.term.denote with
  | none => rfl
  | some a => exact denoteS_congr e.rest e'.rest h.2 a

/-! ## Claim theorems -/

theorem spaceRun_append {a b : List Char} (ha : spaceRun a = true) (hb : spaceRun b = true) :
    spaceRun (a ++ b) = true := by
  simp only [spaceRun, List.all_append, Bool.and_eq_true]
  exact ⟨ha, hb⟩

theorem headNotDigit_space_append {a : List Char} (b : List Char) (ha : spaceRun a = true)
    (hb : headNotDigit b = true) : headNotDigit (a ++ b) = true := by
  cases a with
  | nil => simpa using hb
  | cons w a =>
    have hw : pyIsSpace w = true := by
      simp only [spaceRun, List.all_cons, Bool.and_eq_true] at ha; exact ha.1
    simp [headNotDigit, space_not_digit hw]

/-- C1: for every valid input mixing the four operators, the multiplicative
operators bind tighter than the additive ones: `evaluate` agrees with the
reference semantics `ExprR.denote`, which folds each maximal `*`/`/` chain
(a term, `denoteM`) to a value first and only then folds the term values
with `+`/`-` (`denoteS`); in particular `evaluate "2 + 3 * 4"` returns `14`,
not `20` (see the witness). -/
theorem claim_C1_precedence (e : ExprR) (v : ℚ) (he : e.wf = true)
    (hv : e.denote = some v) : evaluate ⟨e.render⟩ = .ok v := by
  show evalChars e.render = _
  rw [evalChars_render e he, hv]

theorem claim_C1_precedence_witness : evaluate "2 + 3 * 4" = .ok 14 := by
  have h := claim_C1_precedence
    ⟨[], ⟨['2'], []⟩, [⟨[' '], .add, [' '], ⟨['3'], [⟨[' '], .mul, [' '], ['4']⟩]⟩⟩], []⟩ 14
    (by decide)
    (by
      have h2 : digitsVal ['2'] = 2 := by decide
      have h3 : digitsVal ['3'] = 3 := by decide
      have h4 : digitsVal ['4'] = 4 := by decide
      simp [ExprR.denote, TermR.denote, denoteS, denoteM, MOp.app, SOp.app, h2, h3, h4]
      norm_num)
  exact h

/-- C2: for every valid input of the shape `INTEGER (SIGN INTEGER)*` using
only `+`/`-` (every term a single numeral), `evaluate` returns the
left-to-right running sum/difference, i.e. the left fold of the operators
over the numerals; in particular `evaluate "20 - 5 - 3"` returns `12`,
i.e. `(20-5)-3` (see the witness). -/
theorem claim_C2_left_assoc_sum (e : ExprR) (he : e.wf = true)
    (h1 : e.term.rest = []) (h2 : e.rest.all (fun it => it.term.rest.isEmpty) = true) :
    evaluate ⟨e.render⟩ =
      .ok (e.rest.foldl (fun acc it => SOp.app it.op acc (digitsVal it.term.num : ℚ))
        (digitsVal e.term.num : ℚ)) := by
  show evalChars e.render = _
  rw [evalChars_render e he]
  simp only [ExprR.denote, TermR.denote, h1, denoteM, denoteS_singletons e.rest h2]

theorem claim_C2_left_assoc_sum_witness : evaluate "20 - 5 - 3" = .ok 12 := by
  have h := claim_C2_left_assoc_sum
    ⟨[], ⟨['2', '0'], []⟩,
      [⟨[' '], .sub, [' '], ⟨['5'], []⟩⟩, ⟨[' '], .sub, [' '], ⟨['3'], []⟩⟩], []⟩
    (by decide) (by decide) (by decide)
  refine h.trans ?_
  have h20 : digitsVal ['2', '0'] = 20 := by decide
  have h5 : digitsVal ['5'] = 5 := by decide
  have h3 : digitsVal ['3'] = 3 := by decide
  simp only [List.foldl_cons, List.foldl_nil, SOp.app, h20, h5, h3, Except.ok.injEq]
  norm_num

/-- C3 (code bug): when input remains after a complete expression, the code
does not fail with any error: `expr()` simply stops at the first token that
is not a summation sign, `main` never looks at the leftover tokens, and the
partial result is returned.  Here: a wellformed expression followed by
whitespace and a further integer evaluates to the expression's value, the
trailing integer being silently ignored; in particular `evaluate "2 3"`
returns `2` (see the witness), not `ParseError::UnexpectedToken` as the
specification mandates. -/
theorem claim_C3_trailing_token_ignored (e : ExprR) (ws ds : List Char) (v : ℚ)
    (he : e.wf = true) (hws : spaceRun ws = true) (hwsne : ws ≠ [])
    (hds : digitRun ds = true) (hv : e.denote = some v) :
    evalChars (e.render ++ (ws ++ ds)) = .ok v := by
  obtain ⟨ws0, t, l, wsEnd⟩ := e
  simp only [ExprR.wf, Bool.and_eq_true] at he
  obtain ⟨⟨⟨hws0, ht⟩, hl⟩, hwsEnd⟩ := he
  have hkint : NextTok (wsEnd ++ (ws ++ ds)) ⟨.INTEGER, .vInt (digitsVal ds)⟩
      ((wsEnd ++ ws) ++ ds) [] := by
    have := NextTok_integer (r := []) (spaceRun_append hwsEnd hws) hds rfl
    simpa [List.append_assoc] using this
  have hkd : headNotDigit (wsEnd ++ (ws ++ ds)) = true := by
    refine headNotDigit_space_append _ hwsEnd ?_
    cases ws with
    | nil => exact absurd rfl hwsne
    | cons w ws' =>
      have hw : pyIsSpace w = true := by
        simp only [spaceRun, List.all_cons, Bool.and_eq_true] at hws; exact hws.1
      simp [headNotDigit, space_not_digit hw]
  have h := evalChars_cont ws0 t l (wsEnd ++ (ws ++ ds)) hws0 ht hl hkint
    (fun h => TokenType.noConfusion h) hkd
    (fun v2 pre₂ => .ok (v2, ⟨lexAt pre₂ [], ⟨.INTEGER, .vInt (digitsVal ds)⟩⟩))
    (fun pre₂ v2 fuel₂ hf =>
      expr_loop_exit (fun h => TokenType.noConfusion h) v2 fuel₂ hf)
  rw [show ExprR.render ⟨ws0, t, l, wsEnd⟩ ++ (ws ++ ds) =
    ws0 ++ (t.render ++ (renderS l ++ (wsEnd ++ (ws ++ ds)))) by
      simp [ExprR.render, List.append_assoc]]
  rw [h]
  rw [show (match t.denote with | some a => denoteS a l | none => none) = some v from hv]
  rfl

theorem claim_C3_trailing_token_ignored_witness : evaluate "2 3" = .ok 2 := by
  have h := claim_C3_trailing_token_ignored ⟨[], ⟨['2'], []⟩, [], []⟩ [' '] ['3'] 2
    (by decide) (by decide) (by decide) (by decide)
    (by
      have h2 : digitsVal ['2'] = 2 := by decide
      simp [ExprR.denote, TermR.denote, denoteM, denoteS, h2])
  exact h

/-- C4: whenever the reference semantics meets a zero divisor (`denote` is
`none`), `evaluate` fails with Python's `ZeroDivisionError` — an
`ArithmeticError` — and never produces an infinity or NaN (values are exact
rationals and the error path is taken before any division by zero); in
particular `evaluate "10/0"` fails this way (see the witness). -/
theorem claim_C4_division_by_zero (e : ExprR) (he : e.wf = true)
    (hz : e.denote = none) : evaluate ⟨e.render⟩ = .error .zeroDivisionError := by
  show evalChars e.render = _
  rw [evalChars_render e he, hz]

theorem claim_C4_division_by_zero_witness :
    evaluate "10/0" = .error .zeroDivisionError := by
  have h := claim_C4_division_by_zero ⟨[], ⟨['1', '0'], [⟨[], .div, [], ['0']⟩]⟩, [], []⟩
    (by decide)
    (by
      have h0 : digitsVal ['0'] = 0 := by decide
      simp [ExprR.denote, TermR.denote, denoteM, denoteS, MOp.app, h0])
  exact h

/-- C5 (amended): when the lexer meets a character that begins no recognized
token (not whitespace, not a digit, not one of `+ - * /`), evaluation fails
with the lexer's error — `raise Exception("Invalid character")` — whose
payload is that fixed message only: the exception does not carry the
offending character or its position; in particular `evaluate "2 & 3"` fails
with this error. -/
theorem claim_C5_lex_error :
    (∀ (ws : List Char) (c : Char) (r pre : List Char) (fuel : Nat),
      spaceRun ws = true → pyIsSpace c = false → pyIsDigit c = false →
      c ∉ summation_signs → c ∉ multiplication_signs → ws.length + 1 ≤ fuel →
      Lexer.get_next_token (lexAt pre (ws ++ c :: r)) fuel =
        .error (.exception "Invalid character")) ∧
    evaluate "2 & 3" = .error (.exception "Invalid character") := by
  constructor
  · intro ws c r pre fuel h1 h2 h3 h4 h5 h6
    exact gnt_invalid_ws r h1 h2 h3 h4 h5 pre fuel h6
  · exact evalChars_num_invalid ['2'] [' '] '&' [' ', '3'] (by decide) (by decide)
      (by decide) (by decide) (by decide) (by decide)

theorem claim_C5_lex_error_witness :
    Lexer.get_next_token (lexAt ['2'] ([' '] ++ '&' :: [' ', '3'])) 6 =
      .error (.exception "Invalid character") :=
  claim_C5_lex_error.1 [' '] '&' [' ', '3'] ['2'] 6 (by decide) (by decide) (by decide)
    (by decide) (by decide) (by decide)

/-- C5 counterexample: the error raised on an unrecognized character is one
and the same value for different offending characters at different
positions (`'&'` at index 2 of `"2 & 3"`, `'%'` at index 3 of `"12 % 34"`),
so it cannot carry the offending character or its position, refuting the
claim as stated. -/
theorem claim_C5_counterexample :
    evaluate "2 & 3" = evaluate "12 % 34" ∧
    evaluate "2 & 3" = .error (.exception "Invalid character") := by
  have h1 := evalChars_num_invalid ['2'] [' '] '&' [' ', '3'] (by decide) (by decide)
    (by decide) (by decide) (by decide) (by decide)
  have h2 := evalChars_num_invalid ['1', '2'] [' '] '%' [' ', '3', '4'] (by decide)
    (by decide) (by decide) (by decide) (by decide) (by decide)
  exact ⟨h1.trans h2.symm, h1⟩

/-- C6: whitespace between tokens never affects the result: two wellformed
rendered inputs with the same whitespace-free skeleton (same numerals and
operators, arbitrary whitespace paddings) evaluate identically; in
particular `evaluate "2+3"`, `evaluate " 2 + 3 "`, and
`evaluate "2  +   3"` all return `5` (see the witness). -/
theorem claim_C6_whitespace_insensitive (e e' : ExprR) (he : e.wf = true)
    (he' : e'.wf = true) (hcore : e.core = e'.core) :
    evaluate ⟨e.render⟩ = evaluate ⟨e'.render⟩ := by
  show evalChars e.render = evalChars e'.render
  rw [evalChars_render e he, evalChars_render e' he', ExprR_denote_congr hcore]

theorem claim_C6_whitespace_insensitive_witness :
    evaluate "2+3" = evaluate " 2 + 3 " ∧ evaluate " 2 + 3 " = evaluate "2  +   3" ∧
    evaluate "2+3" = .ok 5 := by
  refine ⟨?_, ?_, ?_⟩
  · exact claim_C6_whitespace_insensitive
      ⟨[], ⟨['2'], []⟩, [⟨[], .add, [], ⟨['3'], []⟩⟩], []⟩
      ⟨[' '], ⟨['2'], []⟩, [⟨[' '], .add, [' '], ⟨['3'], []⟩⟩], [' ']⟩
      (by decide) (by decide) (by decide)
  · exact claim_C6_whitespace_insensitive
      ⟨[' '], ⟨['2'], []⟩, [⟨[' '], .add, [' '], ⟨['3'], []⟩⟩], [' ']⟩
      ⟨[], ⟨['2'], []⟩, [⟨[' ', ' '], .add, [' ', ' ', ' '], ⟨['3'], []⟩⟩], []⟩
      (by decide) (by decide) (by decide)
  · have h := evalChars_render ⟨[], ⟨['2'], []⟩, [⟨[], .add, [], ⟨['3'], []⟩⟩], []⟩ (by decide)
    have hd : (ExprR.denote ⟨[], ⟨['2'], []⟩, [⟨[], .add, [], ⟨['3'], []⟩⟩], []⟩) =
        some 5 := by
      have h2 : digitsVal ['2'] = 2 := by decide
      have h3 : digitsVal ['3'] = 3 := by decide
      simp [ExprR.denote, TermR.denote, denoteM, denoteS, SOp.app, h2, h3]
      norm_num
    rw [hd] at h
    exact h

/-- C7: when the grammar expects an integer and the current token is any
other kind (`eat(INTEGER)` in `factor`), evaluation fails with the parser's
error `raise Exception("Invalid syntax")` — the code's rendering of
`ParseError::ExpectedInteger`, its only parse error; in particular a valid
expression followed by a trailing `+`/`-` (so that the right operand is
missing and the current token is `EOF`) fails this way, e.g.
`evaluate "2+"` (see the witness). -/
theorem claim_C7_expected_integer :
    (∀ (st : Interpreter) (fuel : Nat), st.current_token.type ≠ .INTEGER →
      st.factor fuel = .error (.exception "Invalid syntax")) ∧
    (∀ (e : ExprR) (c : Char) (v : ℚ), e.wf = true → e.denote = some v →
      c ∈ summation_signs →
      evalChars (e.render ++ [c]) = .error (.exception "Invalid syntax")) := by
  constructor
  · intro st fuel h
    exact factor_notInteger h
  · intro e c v he hv hc
    obtain ⟨ws0, t, l, wsEnd⟩ := e
    simp only [ExprR.wf, Bool.and_eq_true] at he
    obtain ⟨⟨⟨hws0, ht⟩, hl⟩, hwsEnd⟩ := he
    have hksign : NextTok (wsEnd ++ c :: []) ⟨.S_SIGN, .vChar c⟩ (wsEnd ++ [c]) [] :=
      NextTok_ssign [] hwsEnd hc
    have hcd : pyIsDigit c = false := by
      simp only [summation_signs, List.mem_cons, List.not_mem_nil, or_false] at hc
      rcases hc with rfl | rfl <;> decide
    have hkd : headNotDigit (wsEnd ++ c :: []) = true :=
      headNotDigit_ws_cons [] hwsEnd hcd
    have h := evalChars_cont ws0 t l (wsEnd ++ c :: []) hws0 ht hl hksign
      (fun h => TokenType.noConfusion h) hkd
      (fun _ _ => .error (.exception "Invalid syntax"))
      (fun pre₂ v2 fuel₂ hf => expr_loop_trailing_ssign hc pre₂ v2 fuel₂ hf)
    rw [show ExprR.render ⟨ws0, t, l, wsEnd⟩ ++ [c] =
      ws0 ++ (t.render ++ (renderS l ++ (wsEnd ++ c :: []))) by
        simp [ExprR.render, List.append_assoc]]
    rw [h]
    rw [show (match t.denote with | some a => denoteS a l | none => none) = some v from hv]
    rfl

theorem claim_C7_expected_integer_witness :
    evaluate "2+" = .error (.exception "Invalid syntax") := by
  have h := claim_C7_expected_integer.2 ⟨[], ⟨['2'], []⟩, [], []⟩ '+' 2 (by decide)
    (by
      have h2 : digitsVal ['2'] = 2 := by decide
      simp [ExprR.denote, TermR.denote, denoteM, denoteS, h2])
    (by decide)
  exact h

/-- C8: from any position whose remaining input starts with a run of digits
followed by a non-digit (or nothing), `get_next_token` consumes exactly that
maximal digit run and returns the single `INTEGER` token whose value is the
whole run read in base 10 — it never splits the run digit-wise; in
particular `evaluate "12+3"` returns `15` (see the witness). -/
theorem claim_C8_maximal_digit_run (ds r pre : List Char) (fuel : Nat)
    (hds : digitRun ds = true) (hr : headNotDigit r = true)
    (hf : ds.length + 1 ≤ fuel) :
    Lexer.get_next_token (lexAt pre (ds ++ r)) fuel =
      .ok (⟨.INTEGER, .vInt (digitsVal ds)⟩, lexAt (pre ++ ds) r) :=
  gnt_digits ds r hds hr pre fuel hf

theorem claim_C8_maximal_digit_run_witness :
    Lexer.get_next_token (lexAt [] (['1', '2'] ++ ['+', '3'])) 3 =
        .ok (⟨.INTEGER, .vInt (digitsVal ['1', '2'])⟩, lexAt ([] ++ ['1', '2']) ['+', '3']) ∧
    evaluate "12+3" = .ok 15 := by
  constructor
  · exact claim_C8_maximal_digit_run ['1', '2'] ['+', '3'] [] 3 (by decide) (by decide)
      (by decide)
  · have h := evalChars_render ⟨[], ⟨['1', '2'], []⟩, [⟨[], .add, [], ⟨['3'], []⟩⟩], []⟩
      (by decide)
    have hd : (ExprR.denote ⟨[], ⟨['1', '2'], []⟩, [⟨[], .add, [], ⟨['3'], []⟩⟩], []⟩) =
        some 15 := by
      have h12 : digitsVal ['1', '2'] = 12 := by decide
      have h3 : digitsVal ['3'] = 3 := by decide
      simp [ExprR.denote, TermR.denote, denoteM, denoteS, SOp.app, h12, h3]
      norm_num
    rw [hd] at h
    exact h

/-- C9: division in the evaluator is Python's true division `/`, modelled as
exact division in `ℚ`, not truncating integer division: `evaluate "5/2"`
returns the non-integer value `5/2` (= 2.5, exactly representable), which
differs from `2` and from every integer. -/
theorem claim_C9_true_division :
    evaluate "5/2" = .ok (5 / 2 : ℚ) ∧ (5 / 2 : ℚ) ≠ 2 ∧
      ∀ n : ℤ, (5 / 2 : ℚ) ≠ (n : ℚ) := by
  refine ⟨?_, by norm_num, ?_⟩
  · have h := evalChars_render ⟨[], ⟨['5'], [⟨[], .div, [], ['2']⟩]⟩, [], []⟩ (by decide)
    have hd : (ExprR.denote ⟨[], ⟨['5'], [⟨[], .div, [], ['2']⟩]⟩, [], []⟩) =
        some (5 / 2 : ℚ) := by
      have h5 : digitsVal ['5'] = 5 := by decide
      have h2 : digitsVal ['2'] = 2 := by decide
      simp [ExprR.denote, TermR.denote, denoteM, denoteS, MOp.app, h5, h2]
      try norm_num
    rw [hd] at h
    exact h
  · intro n hn
    have h5 : (5 : ℚ) = 2 * (n : ℚ) := by
      field_simp at hn
      linarith [hn]
    have h5' : (5 : ℤ) = 2 * n := by exact_mod_cast h5
    omega

/-- C10: on the empty input, constructing the `Lexer` already fails:
`Lexer.__init__` unconditionally reads `self.text[self.pos]` at position 0,
raising `IndexError` — a distinct exception from the `Exception`-based
lexer/parser errors of the documented taxonomy. -/
theorem claim_C10_empty_input_index_error :
    evaluate "" = .error .indexError ∧ mkLexer [] = .error .indexError ∧
      ∀ msg : String, PyError.indexError ≠ PyError.exception msg := by
  refine ⟨rfl, rfl, ?_⟩
  intro msg h
  exact PyError.noConfusion h
